import Mathlib

/-!
Verification of the edeska-jmk harvesting scripts (`edeska_jmk.py`,
`magistrat_mesta_brna.py`) against their natural-language design.

Strings are modelled as `List Char`; Python text/bytes operations become
explicit recursive functions over character lists.  Calendar dates that the
harvest loop only compares are modelled as `Int` ordinals; dates that
`strptime` must validate are modelled structurally (`CzDate`).  Network
responses are modelled as values, and the retry loops of the scrapers as
fuel-indexed recursions whose fuel equals the retry budget plus one, which is
exactly the depth the recursive Python code can reach.
-/

namespace Spec2Proof

/-- Coerce a string literal to the `List Char` model used throughout. -/
def str (s : String) : List Char := s.data

/-- Characters kept by the regex `[^a-zA-Z0-9_\-]` substitution in
`sanitize_filename` (edeska_jmk.py:195, magistrat_mesta_brna.py:192). -/
def allowedChar (c : Char) : Bool :=
  decide ((97 ≤ c.toNat ∧ c.toNat ≤ 122) ∨ (65 ≤ c.toNat ∧ c.toNat ≤ 90) ∨
    (48 ≤ c.toNat ∧ c.toNat ≤ 57) ∨ c = '_' ∨ c = '-')

/-- The apostrophe character (written by code point to keep sources plain). -/
def apos : Char := Char.ofNat 39

/-- Modelled from the behaviour of Python's `unicodedata.category(c) = 'Mn'`
restricted to the combining diacritical marks block (U+0300–U+036F), which is
where NFD decomposition of Latin letters places its marks. -/
def isMn (c : Char) : Bool := decide (768 ≤ c.toNat ∧ c.toNat ≤ 879)

/-- Combining acute accent U+0301. -/
def mAcute : Char := '\u0301'

/-- Combining caron U+030C. -/
def mCaron : Char := '\u030C'

/-- Combining ring above U+030A. -/
def mRing : Char := '\u030A'

/-- Modelled from the behaviour of Python's `unicodedata.normalize('NFD', ·)`
on single characters, restricted to the precomposed Latin letters with Czech
diacritics that occur on the harvested sites; all other characters decompose
to themselves. -/
def nfdTable : List (Char × List Char) :=
  [ ('á', ['a', mAcute]), ('é', ['e', mAcute]), ('í', ['i', mAcute]),
    ('ó', ['o', mAcute]), ('ú', ['u', mAcute]), ('ý', ['y', mAcute]),
    ('č', ['c', mCaron]), ('ď', ['d', mCaron]), ('ě', ['e', mCaron]),
    ('ň', ['n', mCaron]), ('ř', ['r', mCaron]), ('š', ['s', mCaron]),
    ('ť', ['t', mCaron]), ('ž', ['z', mCaron]), ('ů', ['u', mRing]),
    ('Á', ['A', mAcute]), ('É', ['E', mAcute]), ('Í', ['I', mAcute]),
    ('Ó', ['O', mAcute]), ('Ú', ['U', mAcute]), ('Ý', ['Y', mAcute]),
    ('Č', ['C', mCaron]), ('Ď', ['D', mCaron]), ('Ě', ['E', mCaron]),
    ('Ň', ['N', mCaron]), ('Ř', ['R', mCaron]), ('Š', ['S', mCaron]),
    ('Ť', ['T', mCaron]), ('Ž', ['Z', mCaron]), ('Ů', ['U', mRing]) ]

/-- First-match lookup in the decomposition table; a character not in the
table decomposes to itself. -/
def lookupNfd : List (Char × List Char) → Char → List Char
  | [], c => [c]
  | p :: t, c => if c = p.1 then p.2 else lookupNfd t c

/-- NFD decomposition of a single character (see `nfdTable`). -/
def nfd (c : Char) : List Char := lookupNfd nfdTable c

/-- `remove_diacritics` (edeska_jmk.py:166-171, magistrat_mesta_brna.py:163-168):
NFD-normalize, then drop every character of category Mn. -/
def remove_diacritics : List Char → List Char
  | [] => []
  | c :: cs => (nfd c).filter (fun d => !isMn d) ++ remove_diacritics cs

/-- Split a filename at its last dot, as Python's `rsplit('.', 1)` preceded by
the `'.' in filename` test: `some (name, ext)` with `ext` starting at the last
dot, `none` when the name has no dot (edeska_jmk.py:184-189 and 122-127). -/
def rsplitDot : List Char → Option (List Char × List Char)
  | [] => none
  | c :: cs =>
    match rsplitDot cs with
    | some (n, e) => some (c :: n, e)
    | none => if c = '.' then some ([], '.' :: cs) else none

/-- The name-portion pipeline of `sanitize_filename`: strip diacritics,
replace spaces with underscores, drop apostrophes, keep only
`[a-zA-Z0-9_-]` (edeska_jmk.py:191-195). -/
def cleanName (n : List Char) : List Char :=
  ((((remove_diacritics n).map (fun c => if c = ' ' then '_' else c)).filter
    (fun c => !(decide (c = apos)))).filter allowedChar)

/-- `sanitize_filename` (edeska_jmk.py:174-197, magistrat_mesta_brna.py:171-194).
Note the source applies only `remove_diacritics` to the extension. -/
def sanitize_filename (filename : List Char) : List Char :=
  if filename = [] then filename
  else
    match rsplitDot filename with
    | some (name, ext) => cleanName name ++ remove_diacritics ext
    | none => cleanName filename

/-- Decimal digit character, as produced by Python's `str` on a digit. -/
def digitChar (d : Nat) : Char := Char.ofNat (48 + d)

/-- Fuel-indexed decimal rendering (most significant digit first). -/
def repAux : Nat → Nat → List Char
  | 0, _ => []
  | f + 1, n => if n = 0 then [] else repAux f (n / 10) ++ [digitChar (n % 10)]

/-- Decimal rendering of a positive counter, as Python's `str(counter)` inside
the f-string of `get_available_filename` (the collision counter is ≥ 1). -/
def natRep (n : Nat) : List Char := repAux (n + 1) n

/-- Candidate collision name `f"{base}_{counter}{ext}"`
(edeska_jmk.py:133, magistrat_mesta_brna.py:137). -/
def candName (base ext : List Char) (k : Nat) : List Char :=
  base ++ '_' :: natRep k ++ ext

/-- The `while (directory / new_name).exists()` loop of
`get_available_filename`, with the directory modelled as the list of existing
names and fuel bounding the iteration count (`dir.length + 1` iterations
always suffice, see `availAux_not_mem`). -/
def availAux (dir : List (List Char)) (base ext : List Char) :
    Nat → Nat → List Char → List Char
  | 0, _, cur => cur
  | fuel + 1, counter, cur =>
    if cur ∈ dir then availAux dir base ext fuel (counter + 1) (candName base ext counter)
    else cur

/-- The base/extension assignment at the head of `get_available_filename`
(edeska_jmk.py:122-127): split at the last dot, or take the whole name as the
base with an empty extension. -/
def baseExt (filename : List Char) : List Char × List Char :=
  match rsplitDot filename with
  | some p => p
  | none => (filename, [])

/-- `get_available_filename` (edeska_jmk.py:120-136,
magistrat_mesta_brna.py:124-140). -/
def get_available_filename (dir : List (List Char)) (filename : List Char) :
    List Char :=
  availAux dir (baseExt filename).1 (baseExt filename).2 (dir.length + 1) 1
    filename

/-! ## Pagination and the date-range stopping rule -/

/-- A notice as seen by the harvest loop: its parsed publication date
(modelled as an `Int` ordinal, since the loop only compares dates) and an
identifier distinguishing notices. -/
structure Notice where
  date : Int
  uid : Nat
deriving DecidableEq

/-- The `for item in items` body of `main` (edeska_jmk.py:534-545,
magistrat_mesta_brna.py:574-587): skip an item newer than `toD`, stop the
whole traversal at the first item older than `fromD`, otherwise process the
item.  Returns the processed items of the page and the `finished` flag. -/
def processItems (fromD toD : Int) : List Notice → List Notice × Bool
  | [] => ([], false)
  | n :: rest =>
    if toD < n.date then processItems fromD toD rest
    else if n.date < fromD then ([], true)
    else
      let r := processItems fromD toD rest
      (n :: r.1, r.2)

/-- An item is in the harvesting range `[fromD, toD]`. -/
def inRange (fromD toD : Int) (n : Notice) : Bool :=
  decide (fromD ≤ n.date ∧ n.date ≤ toD)

/-- The `while not finished` page loop of `main` in edeska_jmk.py:517-598,
with pages modelled as the successive successful list-page parses: an empty
page breaks the loop, the `finished` flag set by `processItems` stops the
whole traversal.  Returns the processed notices in order. -/
def jmkLoop (fromD toD : Int) : List (List Notice) → List Notice
  | [] => []
  | page :: rest =>
    if page = [] then []
    else
      let r := processItems fromD toD page
      if r.2 then r.1 else r.1 ++ jmkLoop fromD toD rest

/-- The `while not finished` loop of `main` in magistrat_mesta_brna.py:552-640:
same per-item rule, but after each non-final page the offset advances by
`PAGE_SIZE = 25` and the loop breaks as soon as `first >= total_count`, where
`total_count` is `parse_total_count`'s result (0 when the count could not be
parsed). -/
def brnoLoop (fromD toD : Int) (totalCount : Nat) :
    List (List Notice) → Nat → List Notice
  | [], _ => []
  | page :: rest, first =>
    if page = [] then []
    else
      let r := processItems fromD toD page
      if r.2 then r.1
      else if totalCount ≤ first + 25 then r.1
      else r.1 ++ brnoLoop fromD toD totalCount rest (first + 25)

/-! ## The resilient fetcher: `get_page` retry logic -/

/-- Retry budget `MAX_RETRIES` (edeska_jmk.py:71, magistrat_mesta_brna.py:73). -/
def MAX_RETRIES : Nat := 3

/-- Inter-retry delay `PAUSE_ON_ERROR` in seconds (edeska_jmk.py:68). -/
def PAUSE_ON_ERROR : Nat := 30

/-- Observable logging/sleeping events of a fetch call. -/
inductive LogEv
  | warn
  | sleepSec (n : Nat)
  | error
deriving DecidableEq

/-- Does `pat` occur as a contiguous segment at the head of `text`? -/
def startsSeg : List Char → List Char → Bool
  | [], _ => true
  | _ :: _, [] => false
  | p :: ps, t :: ts => decide (p = t) && startsSeg ps ts

/-- Python's `pat in text` substring test. -/
def containsSeg (pat : List Char) : List Char → Bool
  | [] => startsSeg pat []
  | t :: ts => startsSeg pat (t :: ts) || containsSeg pat ts

/-- The maintenance-page marker test
`"Service Unavailable" in text or "docasne nedostupna" in text`
(edeska_jmk.py:347). -/
def maintenanceMarker (body : List Char) : Bool :=
  containsSeg (str "Service Unavailable") body ||
    containsSeg (str "docasne nedostupna") body

/-- One HTTP attempt as seen by a scraper: either the transport raised, or a
response with a status code and a body arrived. -/
inductive Attempt
  | exn
  | resp (status : Nat) (body : List Char)

/-- The `try` block of `JMKScraper.get_page` (edeska_jmk.py:342-351): `some`
body on success, `none` when an exception is raised (transport error, non-200
status, or a 200 body carrying a maintenance marker). -/
def jmk_try (a : Attempt) : Option (List Char) :=
  match a with
  | .exn => none
  | .resp s body =>
    if s = 200 then (if maintenanceMarker body then none else some body)
    else none

/-- The `try` block of `BrnoScraper.get_page`
(magistrat_mesta_brna.py:347-352): only the status code is inspected; a 200
body is returned unconditionally. -/
def brno_try (a : Attempt) : Option (List Char) :=
  match a with
  | .exn => none
  | .resp s body => if s = 200 then some body else none

/-- The recursive retry structure shared by both scrapers' `get_page`
(edeska_jmk.py:353-360, magistrat_mesta_brna.py:353-360): on failure, if
`retry < MAX_RETRIES`, log WARN, sleep `PAUSE_ON_ERROR`, recurse with
`retry + 1`; otherwise log ERROR and return `None`.  `att n` is the outcome
of the attempt made at retry counter `n`; the fuel starts at
`MAX_RETRIES + 1`, the exact maximal recursion depth. -/
def pageRetryAux (tryf : Attempt → Option (List Char)) (att : Nat → Attempt) :
    Nat → Nat → Option (List Char) × List LogEv
  | 0, _ => (none, [])
  | fuel + 1, retry =>
    match tryf (att retry) with
    | some body => (some body, [])
    | none =>
      if retry < MAX_RETRIES then
        let r := pageRetryAux tryf att fuel (retry + 1)
        (r.1, LogEv.warn :: LogEv.sleepSec PAUSE_ON_ERROR :: r.2)
      else (none, [LogEv.error])

/-- `JMKScraper.get_page(url)` (edeska_jmk.py:340-360). -/
def jmk_get_page (att : Nat → Attempt) : Option (List Char) × List LogEv :=
  pageRetryAux jmk_try att (MAX_RETRIES + 1) 0

/-- `BrnoScraper.get_page(url)` (magistrat_mesta_brna.py:345-360). -/
def brno_get_page (att : Nat → Attempt) : Option (List Char) × List LogEv :=
  pageRetryAux brno_try att (MAX_RETRIES + 1) 0

/-! ## Streamed downloads: `download_file` -/

/-- A download response: status, `Content-Type` header value, presence of a
`Content-Disposition` header, and the body. -/
structure DlResp where
  status : Nat
  contentType : List Char
  hasDisposition : Bool
  body : List Char

/-- One download attempt: transport exception or a response. -/
inductive DlAttempt
  | exn
  | resp (r : DlResp)

/-- Outcome of one `try` body of `download_file`: saved OK, soft
document-unavailable failure, or a raised exception. -/
inductive DlOutcome
  | ok
  | soft
  | fail
deriving DecidableEq

/-- ASCII lowercasing, as Python's `bytes.lower()` used on the body
(edeska_jmk.py:397). -/
def lowerChar (c : Char) : Char :=
  if 65 ≤ c.toNat ∧ c.toNat ≤ 90 then Char.ofNat (c.toNat + 32) else c

/-- The "document not available" marker test
`b"dokument" in content_lower and b"dispozici" in content_lower`
(edeska_jmk.py:398). -/
def docUnavailable (body : List Char) : Bool :=
  containsSeg (str "dokument") (body.map lowerChar) &&
    containsSeg (str "dispozici") (body.map lowerChar)

/-- The `try` block of `JMKScraper.download_file` (edeska_jmk.py:386-407):
non-200 raises; a textual body without an attachment disposition is inspected
for maintenance markers (raise) and for the document-unavailable marker
(WARN + soft `False`); otherwise the body is saved and `True` returned. -/
def jmk_dl_try (r : DlResp) : DlOutcome :=
  if r.status = 200 then
    if containsSeg (str "text/html") r.contentType && !r.hasDisposition then
      if maintenanceMarker r.body then .fail
      else if docUnavailable r.body then .soft
      else .ok
    else .ok
  else .fail

/-- The `try` block of `BrnoScraper.download_file`
(magistrat_mesta_brna.py:381-398): as JMK's, but with no
document-unavailable check — such a body is saved and reported as success. -/
def brno_dl_try (r : DlResp) : DlOutcome :=
  if r.status = 200 then
    if containsSeg (str "text/html") r.contentType && !r.hasDisposition then
      if maintenanceMarker r.body then .fail else .ok
    else .ok
  else .fail

/-- The retry structure of `download_file` (edeska_jmk.py:409-416,
magistrat_mesta_brna.py:400-407): a soft outcome logs WARN and returns
`False` immediately (no retry); an exception retries up to `MAX_RETRIES`
with WARN + sleep, then logs ERROR and returns `False`. -/
def dlRetryAux (tryf : DlResp → DlOutcome) (att : Nat → DlAttempt) :
    Nat → Nat → Bool × List LogEv
  | 0, _ => (false, [])
  | fuel + 1, retry =>
    match (match att retry with | .exn => DlOutcome.fail | .resp r => tryf r) with
    | .ok => (true, [])
    | .soft => (false, [LogEv.warn])
    | .fail =>
      if retry < MAX_RETRIES then
        let r := dlRetryAux tryf att fuel (retry + 1)
        (r.1, LogEv.warn :: LogEv.sleepSec PAUSE_ON_ERROR :: r.2)
      else (false, [LogEv.error])

/-- `JMKScraper.download_file` (edeska_jmk.py:384-416). -/
def jmk_download (att : Nat → DlAttempt) : Bool × List LogEv :=
  dlRetryAux jmk_dl_try att (MAX_RETRIES + 1) 0

/-- `BrnoScraper.download_file` (magistrat_mesta_brna.py:379-407). -/
def brno_download (att : Nat → DlAttempt) : Bool × List LogEv :=
  dlRetryAux brno_dl_try att (MAX_RETRIES + 1) 0

/-! ## List-page row parsing and Czech date parsing -/

/-- A structural view of one `<tr>` row of the JMK list page: the text
content of the publication-date cell, and the detail link (href, title) when
the name-cell pattern of edeska_jmk.py:451 matches. -/
structure RawRow where
  dateText : List Char
  link : Option (List Char × List Char)

/-- A parsed list item (edeska_jmk.py:458-463); only the fields the claims
need are modelled. -/
structure Item where
  day : Nat
  month : Nat
  year : Nat
  url : List Char
  name : List Char
deriving DecidableEq

/-- Is `c` an ASCII decimal digit? -/
def isDigitCh (c : Char) : Bool := decide (48 ≤ c.toNat ∧ c.toNat ≤ 57)

/-- Numeric value of a digit character. -/
def digitVal (c : Char) : Nat := c.toNat - 48

/-- The date-cell regex `(\d{2}\.\d{2}\.\d{4})` of edeska_jmk.py:446,
anchored to the whole cell text by the surrounding markup. -/
def matchesDatePat : List Char → Bool
  | [d1, d2, p1, m1, m2, p2, y1, y2, y3, y4] =>
    isDigitCh d1 && isDigitCh d2 && decide (p1 = '.') &&
      isDigitCh m1 && isDigitCh m2 && decide (p2 = '.') &&
      isDigitCh y1 && isDigitCh y2 && isDigitCh y3 && isDigitCh y4
  | _ => false

/-- Gregorian leap-year rule used by `datetime`. -/
def isLeap (y : Nat) : Bool :=
  (decide (y % 4 = 0) && !decide (y % 100 = 0)) || decide (y % 400 = 0)

/-- Days in a month, as validated by `datetime.strptime`. -/
def daysInMonth (m y : Nat) : Nat :=
  if m = 2 then (if isLeap y then 29 else 28)
  else if m = 4 ∨ m = 6 ∨ m = 9 ∨ m = 11 then 30
  else 31

/-- `parse_date_cz` (edeska_jmk.py:139-141), i.e.
`datetime.strptime(date_str, "%d.%m.%Y")`: `none` models the `ValueError`
raised on a malformed or calendar-invalid date. -/
def parse_date_cz (s : List Char) : Option (Nat × Nat × Nat) :=
  match s with
  | [d1, d2, p1, m1, m2, p2, y1, y2, y3, y4] =>
    if isDigitCh d1 && isDigitCh d2 && decide (p1 = '.') &&
        isDigitCh m1 && isDigitCh m2 && decide (p2 = '.') &&
        isDigitCh y1 && isDigitCh y2 && isDigitCh y3 && isDigitCh y4 then
      let day := 10 * digitVal d1 + digitVal d2
      let mon := 10 * digitVal m1 + digitVal m2
      let yr := 1000 * digitVal y1 + 100 * digitVal y2 + 10 * digitVal y3 +
        digitVal y4
      if 1 ≤ mon ∧ mon ≤ 12 ∧ 1 ≤ day ∧ day ≤ daysInMonth mon yr ∧ 1 ≤ yr then
        some (day, mon, yr)
      else none
    else none
  | _ => none

/-- The row loop of `JMKScraper.parse_list_page` (edeska_jmk.py:443-465)
together with the `format_date_iso` call it makes while building each item:
a row whose date cell does not match the pattern, or without a detail link,
is skipped (`continue`); a pattern-matching date is then fed to
`parse_date_cz`, whose `ValueError` propagates and aborts the whole page
parse (`none`). -/
def parseRows : List RawRow → Option (List Item)
  | [] => some []
  | r :: rs =>
    if matchesDatePat r.dateText then
      match r.link with
      | none => parseRows rs
      | some (u, t) =>
        match parse_date_cz r.dateText with
        | none => none
        | some d =>
          match parseRows rs with
          | none => none
          | some items => some (⟨d.1, d.2.1, d.2.2, u, t⟩ :: items)
    else parseRows rs

/-! ## Run log and exit status -/

/-- Log-line severities used by `log` (edeska_jmk.py:93-106). -/
inductive Level
  | info
  | warn
  | error
deriving DecidableEq

/-- The `HAS_ERROR` global: folded over the run's log calls, set by any
ERROR-level line (edeska_jmk.py:100-101). -/
def hasErrorFlag (lines : List Level) : Bool :=
  lines.foldl (fun f lv => if lv = Level.error then true else f) false

/-- The tail of `main` (edeska_jmk.py:624-629, magistrat_mesta_brna.py:666-671):
given the run's accumulated log lines, append the closing line (ERROR on
failure, INFO on success) and exit 1 or 0 accordingly.  Returns the final log
and the exit status. -/
def mainExit (lines : List Level) : List Level × Nat :=
  if hasErrorFlag lines then (lines ++ [Level.error], 1)
  else (lines ++ [Level.info], 0)

/-! ## Lemmas about the decomposition model -/

theorem lookupNfd_cases (t : List (Char × List Char)) (c : Char) :
    (∃ p, p ∈ t ∧ c = p.1 ∧ lookupNfd t c = p.2) ∨ lookupNfd t c = [c] := by
  induction t with
  | nil => exact Or.inr rfl
  | cons p t ih =>
    by_cases h : c = p.1
    · exact Or.inl ⟨p, List.mem_cons_self _ _, h, by simp [lookupNfd, h]⟩
    · rcases ih with ⟨q, hq, hc, he⟩ | he
      · exact Or.inl ⟨q, List.mem_cons_of_mem _ hq, hc, by simp [lookupNfd, h, he]⟩
      · exact Or.inr (by simp [lookupNfd, h, he])

theorem tableStable : ∀ p ∈ nfdTable, ∀ d ∈ p.2, isMn d = false →
    lookupNfd nfdTable d = [d] := by decide

theorem tableNotAllowed : ∀ p ∈ nfdTable, allowedChar p.1 = false := by decide

theorem tableNoDot : ∀ p ∈ nfdTable, ∀ d ∈ p.2, ¬(d = '.') := by decide

theorem nfd_out_stable (c d : Char) (hd : d ∈ nfd c) (hmn : isMn d = false) :
    nfd d = [d] := by
  rcases lookupNfd_cases nfdTable c with ⟨p, hp, _, he⟩ | he
  · rw [nfd, he] at hd
    exact tableStable p hp d hd hmn
  · rw [nfd, he] at hd
    rcases List.mem_singleton.mp hd with rfl
    rw [nfd, he]

theorem dot_in_nfd {c : Char} (hd : '.' ∈ nfd c) : c = '.' := by
  rcases lookupNfd_cases nfdTable c with ⟨p, hp, _, he⟩ | he
  · rw [nfd, he] at hd
    exact absurd rfl (tableNoDot p hp '.' hd)
  · rw [nfd, he] at hd
    exact (List.mem_singleton.mp hd).symm

theorem allowed_isMn (c : Char) (h : allowedChar c = true) : isMn c = false := by
  simp only [allowedChar, decide_eq_true_eq] at h
  rcases h with h | h | h | rfl | rfl
  · simp only [isMn, decide_eq_false_iff_not, not_and]; omega
  · simp only [isMn, decide_eq_false_iff_not, not_and]; omega
  · simp only [isMn, decide_eq_false_iff_not, not_and]; omega
  · decide
  · decide

theorem allowed_stable (c : Char) (h : allowedChar c = true) :
    nfd c = [c] ∧ isMn c = false := by
  refine ⟨?_, allowed_isMn c h⟩
  rcases lookupNfd_cases nfdTable c with ⟨p, hp, hc, _⟩ | he
  · rw [hc] at h
    rw [tableNotAllowed p hp] at h
    exact absurd h (by simp)
  · rw [nfd, he]

theorem mem_remove_diacritics {s : List Char} {d : Char}
    (h : d ∈ remove_diacritics s) : (∃ c ∈ s, d ∈ nfd c) ∧ isMn d = false := by
  induction s with
  | nil => simp [remove_diacritics] at h
  | cons c cs ih =>
    simp only [remove_diacritics, List.mem_append, List.mem_filter] at h
    rcases h with ⟨hd, hmn⟩ | h
    · exact ⟨⟨c, by simp, hd⟩, by simpa using hmn⟩
    · rcases ih h with ⟨⟨e, he, hd⟩, hmn⟩
      exact ⟨⟨e, by simp [he], hd⟩, hmn⟩

theorem remove_diacritics_fixed {s : List Char}
    (h : ∀ c ∈ s, nfd c = [c] ∧ isMn c = false) : remove_diacritics s = s := by
  induction s with
  | nil => rfl
  | cons c cs ih =>
    have hc := h c (by simp)
    simp [remove_diacritics, hc.1, hc.2, ih (fun d hd => h d (by simp [hd]))]

theorem remove_diacritics_idem (s : List Char) :
    remove_diacritics (remove_diacritics s) = remove_diacritics s := by
  apply remove_diacritics_fixed
  intro d hd
  rcases mem_remove_diacritics hd with ⟨⟨c, _, hdc⟩, hmn⟩
  exact ⟨nfd_out_stable c d hdc hmn, hmn⟩

/-! ## Lemmas about `cleanName` and `rsplitDot` -/

theorem cleanName_allowed {n : List Char} {c : Char} (h : c ∈ cleanName n) :
    allowedChar c = true := (List.mem_filter.mp h).2

theorem map_space_fixed {l : List Char} (h : ∀ c ∈ l, allowedChar c = true) :
    l.map (fun c => if c = ' ' then '_' else c) = l := by
  induction l with
  | nil => rfl
  | cons c cs ih =>
    have hc := h c (by simp)
    have hne : ¬(c = ' ') := by rintro rfl; exact absurd hc (by decide)
    simp [hne, ih (fun d hd => h d (by simp [hd]))]

theorem cleanName_fixed {n : List Char} (h : ∀ c ∈ n, allowedChar c = true) :
    cleanName n = n := by
  unfold cleanName
  rw [remove_diacritics_fixed (fun c hc => allowed_stable c (h c hc)),
    map_space_fixed h]
  have h1 : n.filter (fun c => !(decide (c = apos))) = n := by
    rw [List.filter_eq_self]
    intro a ha
    simp only [Bool.not_eq_true', decide_eq_false_iff_not]
    rintro rfl
    exact absurd (h apos ha) (by decide)
  rw [h1, List.filter_eq_self.mpr h]

theorem rsplitDot_none {l : List Char} (h : '.' ∉ l) : rsplitDot l = none := by
  induction l with
  | nil => rfl
  | cons c cs ih =>
    have hc : ¬(c = '.') := fun e => h (by simp [e])
    have hcs : '.' ∉ cs := fun e => h (by simp [e])
    simp [rsplitDot, ih hcs, hc]

theorem not_mem_of_rsplitDot_none {l : List Char} (h : rsplitDot l = none) :
    '.' ∉ l := by
  induction l with
  | nil => simp
  | cons c cs ih =>
    simp only [rsplitDot] at h
    cases hcs : rsplitDot cs with
    | some p => rw [hcs] at h; obtain ⟨n, e⟩ := p; simp at h
    | none =>
      rw [hcs] at h
      by_cases hc : c = '.'
      · rw [if_pos hc] at h; simp at h
      · intro hmem
        rcases List.mem_cons.mp hmem with he | he
        · exact hc he.symm
        · exact ih hcs he

theorem rsplitDot_spec {l n e : List Char} (h : rsplitDot l = some (n, e)) :
    l = n ++ e ∧ ∃ rest, e = '.' :: rest ∧ '.' ∉ rest := by
  induction l generalizing n e with
  | nil => simp [rsplitDot] at h
  | cons c cs ih =>
    simp only [rsplitDot] at h
    cases hcs : rsplitDot cs with
    | some p =>
      rw [hcs] at h
      obtain ⟨n', e'⟩ := p
      simp only [Option.some.injEq, Prod.mk.injEq] at h
      obtain ⟨hn, he⟩ := h
      subst hn
      subst he
      rcases ih hcs with ⟨hcseq, rest, hrest, hnd⟩
      exact ⟨by simp [hcseq], rest, hrest, hnd⟩
    | none =>
      rw [hcs] at h
      by_cases hc : c = '.'
      · rw [if_pos hc] at h
        simp only [Option.some.injEq, Prod.mk.injEq] at h
        refine ⟨by rw [← h.1, ← h.2]; simp [hc], cs, by rw [← h.2], ?_⟩
        exact not_mem_of_rsplitDot_none hcs
      · rw [if_neg hc] at h
        simp at h

theorem rsplitDot_append {A B : List Char} (hA : '.' ∉ A) (hB : '.' ∉ B) :
    rsplitDot (A ++ '.' :: B) = some (A, '.' :: B) := by
  induction A with
  | nil => simp [rsplitDot, rsplitDot_none hB]
  | cons a A ih =>
    have hA' : '.' ∉ A := fun e => hA (by simp [e])
    have ha : ¬(a = '.') := fun e => hA (by simp [e])
    simp [rsplitDot, ih hA']

/-! ## `sanitize_filename` structure -/

theorem sanitize_eq_some {f n e : List Char} (h : rsplitDot f = some (n, e)) :
    sanitize_filename f = cleanName n ++ remove_diacritics e := by
  have hf : ¬(f = []) := by rintro rfl; simp [rsplitDot] at h
  simp [sanitize_filename, hf, h]

theorem sanitize_eq_none {f : List Char} (h : rsplitDot f = none) :
    sanitize_filename f = cleanName f := by
  by_cases hf : f = []
  · subst hf; simp [sanitize_filename, cleanName, remove_diacritics]
  · simp [sanitize_filename, hf, h]

theorem allowedChar_ne_dot {c : Char} (h : allowedChar c = true) : ¬(c = '.') := by
  rintro rfl
  exact absurd h (by decide)

/-- C2, amended part: every character of the output is either in
`[A-Za-z0-9_-]` (the fully sanitized name portion) or survives from the
merely diacritic-stripped extension. -/
theorem c2_sanitize_output (f : List Char) (c : Char)
    (hc : c ∈ sanitize_filename f) :
    allowedChar c = true ∨
      ∃ n e, rsplitDot f = some (n, e) ∧ c ∈ remove_diacritics e := by
  by_cases hf : f = []
  · subst hf; simp [sanitize_filename] at hc
  cases hsp : rsplitDot f with
  | none =>
    rw [sanitize_eq_none hsp] at hc
    exact Or.inl (cleanName_allowed hc)
  | some p =>
    obtain ⟨n, e⟩ := p
    rw [sanitize_eq_some hsp] at hc
    rcases List.mem_append.mp hc with h | h
    · exact Or.inl (cleanName_allowed h)
    · exact Or.inr ⟨n, e, rfl, h⟩

/-- C2, counterexample: the claim "the extension is sanitized the same way, so
the output contains only `[A-Za-z0-9_.-]`" fails: the source never applies the
space/apostrophe/character-class steps to the extension, so
`sanitize_filename "a.b c" = "a.b c"` keeps the space. -/
theorem c2_counterexample :
    ¬(∀ c ∈ sanitize_filename (str "a.b c"),
      (allowedChar c || decide (c = '.')) = true) := by decide

theorem c2_witness :
    allowedChar 'a' = true ∨
      ∃ n e, rsplitDot (str "a.pdf") = some (n, e) ∧
        'a' ∈ remove_diacritics e :=
  c2_sanitize_output (str "a.pdf") 'a' (by decide)

/-- C9: `sanitize_filename` is idempotent. -/
theorem c9_sanitize_idem (f : List Char) :
    sanitize_filename (sanitize_filename f) = sanitize_filename f := by
  by_cases hf : f = []
  · subst hf; simp [sanitize_filename]
  cases hsp : rsplitDot f with
  | none =>
    rw [sanitize_eq_none hsp]
    have hall : ∀ c ∈ cleanName f, allowedChar c = true :=
      fun c hc => cleanName_allowed hc
    have hnd : '.' ∉ cleanName f := fun hdot => allowedChar_ne_dot (hall _ hdot) rfl
    rw [sanitize_eq_none (rsplitDot_none hnd), cleanName_fixed hall]
  | some p =>
    obtain ⟨n, e⟩ := p
    rw [sanitize_eq_some hsp]
    obtain ⟨-, rest, rfl, hrest⟩ := rsplitDot_spec hsp
    have hdrop : remove_diacritics ('.' :: rest) = '.' :: remove_diacritics rest := by
      have h1 : nfd '.' = ['.'] := by decide
      have h2 : isMn '.' = false := by decide
      simp [remove_diacritics, h1, h2]
    rw [hdrop]
    have hA : '.' ∉ cleanName n :=
      fun hdot => allowedChar_ne_dot (cleanName_allowed hdot) rfl
    have hB : '.' ∉ remove_diacritics rest := by
      intro hdot
      rcases mem_remove_diacritics hdot with ⟨⟨c, hcrest, hcd⟩, -⟩
      exact hrest (dot_in_nfd hcd ▸ hcrest)
    rw [sanitize_eq_some (rsplitDot_append hA hB),
      cleanName_fixed (fun c hc => cleanName_allowed hc)]
    have hdrop2 : remove_diacritics ('.' :: remove_diacritics rest) =
        '.' :: remove_diacritics (remove_diacritics rest) := by
      have h1 : nfd '.' = ['.'] := by decide
      have h2 : isMn '.' = false := by decide
      simp [remove_diacritics, h1, h2]
    rw [hdrop2, remove_diacritics_idem]

/-! ## C8: exit status -/

theorem hasErrorFlag_iff (lines : List Level) :
    hasErrorFlag lines = true ↔ Level.error ∈ lines := by
  have key : ∀ (l : List Level) (b : Bool),
      l.foldl (fun f lv => if lv = Level.error then true else f) b = true ↔
        (b = true ∨ Level.error ∈ l) := by
    intro l
    induction l with
    | nil => intro b; simp
    | cons lv ls ih =>
      intro b
      simp only [List.foldl_cons, ih, List.mem_cons]
      by_cases h : lv = Level.error
      · subst h; simp
      · have h2 : ¬(Level.error = lv) := fun e => h e.symm
        simp [h, h2]
  exact (key lines false).trans (by simp)

/-- C8: the script exits 0 exactly when no ERROR-level line occurred in the
run's final log. -/
theorem c8_exit_status (lines : List Level) :
    (mainExit lines).2 = 0 ↔ Level.error ∉ (mainExit lines).1 := by
  unfold mainExit
  by_cases h : hasErrorFlag lines = true
  · simp [h]
  · have h' : Level.error ∉ lines := fun hm => h ((hasErrorFlag_iff lines).mpr hm)
    simp [h, h']

/-! ## C1: date-bounded traversal -/

theorem processItems_sorted (fromD toD : Int) (hft : fromD ≤ toD) :
    ∀ page : List Notice, page.Pairwise (fun a b => b.date ≤ a.date) →
      processItems fromD toD page =
        (page.filter (inRange fromD toD),
          page.any (fun n => decide (n.date < fromD))) := by
  intro page hs
  induction page with
  | nil => rfl
  | cons n rest ih =>
    rw [List.pairwise_cons] at hs
    by_cases h1 : toD < n.date
    · have hnr : inRange fromD toD n = false := by
        simp only [inRange, decide_eq_false_iff_not, not_and]; omega
      have hnl : decide (n.date < fromD) = false := by
        simp only [decide_eq_false_iff_not]; omega
      simp [processItems, h1, ih hs.2, hnr, hnl]
    · by_cases h2 : n.date < fromD
      · have hnr : inRange fromD toD n = false := by
          simp only [inRange, decide_eq_false_iff_not, not_and]; omega
        have hl : decide (n.date < fromD) = true := by simpa using h2
        have hrest : rest.filter (inRange fromD toD) = [] := by
          rw [List.filter_eq_nil_iff]
          intro a ha
          have hle := hs.1 a ha
          simp only [inRange, decide_eq_true_eq, not_and]; omega
        simp [processItems, h1, h2, hnr, hl, hrest]
      · have hnr : inRange fromD toD n = true := by
          simp only [inRange, decide_eq_true_eq]; omega
        have hnl : decide (n.date < fromD) = false := by
          simp only [decide_eq_false_iff_not]; omega
        simp [processItems, h1, h2, ih hs.2, hnr, hnl]

theorem jmkLoop_filter (fromD toD : Int) (hft : fromD ≤ toD) :
    ∀ pages : List (List Notice), (∀ p ∈ pages, p ≠ []) →
      pages.flatten.Pairwise (fun a b => b.date ≤ a.date) →
      jmkLoop fromD toD pages = pages.flatten.filter (inRange fromD toD) := by
  intro pages
  induction pages with
  | nil => intro _ _; rfl
  | cons page rest ih =>
    intro hne hs
    have hpne : ¬(page = []) := hne page (by simp)
    rw [List.flatten_cons, List.pairwise_append] at hs
    obtain ⟨hs1, hs2, hcross⟩ := hs
    have hp := processItems_sorted fromD toD hft page hs1
    rw [List.flatten_cons, List.filter_append]
    by_cases hfin : page.any (fun n => decide (n.date < fromD)) = true
    · obtain ⟨x, hx, hxd⟩ := List.any_eq_true.mp hfin
      have hxlt : x.date < fromD := by simpa using hxd
      have hrest0 : rest.flatten.filter (inRange fromD toD) = [] := by
        rw [List.filter_eq_nil_iff]
        intro a ha
        have := hcross x hx a ha
        simp only [inRange, decide_eq_true_eq, not_and]
        omega
      simp [jmkLoop, hpne, hp, hfin, hrest0]
    · have hfin' : page.any (fun n => decide (n.date < fromD)) = false :=
        Bool.eq_false_iff.mpr hfin
      have hrest := ih (fun p hp' => hne p (by simp [hp'])) hs2
      simp [jmkLoop, hpne, hp, hfin', hrest]

/-- The Brno page loop agrees with the JMK page loop whenever the total
count covers every delivered page (`25 * (pages.length - 1) < totalCount`,
stated without truncated subtraction): the `first >= total_count` break then
fires only after the last page. -/
theorem brnoLoop_eq_jmkLoop (fromD toD : Int) (tc : Nat) :
    ∀ (pages : List (List Notice)) (first : Nat),
      first + 25 * pages.length < tc + 25 →
      brnoLoop fromD toD tc pages first = jmkLoop fromD toD pages := by
  intro pages
  induction pages with
  | nil => intro first _; rfl
  | cons page rest ih =>
    intro first h
    by_cases hp : page = []
    · simp [brnoLoop, jmkLoop, hp]
    · cases rest with
      | nil =>
        by_cases hfin : (processItems fromD toD page).2 = true
        · simp [brnoLoop, jmkLoop, hp, hfin]
        · by_cases hbr : tc ≤ first + 25
          · simp [brnoLoop, jmkLoop, hp, hfin, hbr]
          · simp [brnoLoop, jmkLoop, hp, hfin, hbr]
      | cons q qs =>
        have hbr : ¬(tc ≤ first + 25) := by
          simp only [List.length_cons] at h
          omega
        by_cases hfin : (processItems fromD toD page).2 = true
        · simp [brnoLoop, jmkLoop, hp, hfin]
        · have ih' := ih (first + 25)
            (by simp only [List.length_cons] at h ⊢; omega)
          have hL : brnoLoop fromD toD tc (page :: q :: qs) first =
              if page = [] then []
              else if (processItems fromD toD page).2 = true then
                (processItems fromD toD page).1
              else if tc ≤ first + 25 then (processItems fromD toD page).1
              else (processItems fromD toD page).1 ++
                brnoLoop fromD toD tc (q :: qs) (first + 25) := rfl
          have hR : jmkLoop fromD toD (page :: q :: qs) =
              if page = [] then []
              else if (processItems fromD toD page).2 = true then
                (processItems fromD toD page).1
              else (processItems fromD toD page).1 ++
                jmkLoop fromD toD (q :: qs) := rfl
          rw [hL, hR, if_neg hp, if_neg hp, if_neg hfin, if_neg hfin,
            if_neg hbr, ih']

/-- C1, amended: with `fromDate ≤ toDate` and the notice stream as delivered
by the site (nonempty pages whose concatenation is sorted descending by
published date), the JMK traversal processes exactly the notices in
`[fromDate, toDate]`, and so does the Brno traversal provided its parsed
total count covers all delivered pages; moreover any notice older than
`fromDate` terminates the page scan immediately, inspecting nothing after
it.  (Without the count hypothesis the Brno traversal can truncate the
harvest — see the counterexample.) -/
theorem c1_date_bounded_traversal (fromD toD : Int) (pages : List (List Notice))
    (tc : Nat) (hft : fromD ≤ toD) (hne : ∀ p ∈ pages, p ≠ [])
    (hs : pages.flatten.Pairwise (fun a b => b.date ≤ a.date))
    (htc : 25 * pages.length < tc + 25) :
    jmkLoop fromD toD pages = pages.flatten.filter (inRange fromD toD) ∧
      brnoLoop fromD toD tc pages 0 =
        pages.flatten.filter (inRange fromD toD) ∧
      ∀ (n : Notice) (tail : List Notice), n.date < fromD →
        processItems fromD toD (n :: tail) = ([], true) := by
  have hj := jmkLoop_filter fromD toD hft pages hne hs
  refine ⟨hj, ?_, ?_⟩
  · rw [brnoLoop_eq_jmkLoop fromD toD tc pages 0 (by omega), hj]
  · intro n tail hn
    have h1 : ¬(toD < n.date) := by omega
    simp [processItems, h1, hn]

def c1Pages : List (List Notice) := [[⟨3, 0⟩, ⟨2, 1⟩], [⟨1, 2⟩]]

theorem c1_witness :
    jmkLoop 2 2 c1Pages = c1Pages.flatten.filter (inRange 2 2) ∧
    brnoLoop 2 2 60 c1Pages 0 = c1Pages.flatten.filter (inRange 2 2) :=
  ⟨(c1_date_bounded_traversal 2 2 c1Pages 60 (by decide) (by decide)
      (by decide) (by decide)).1,
    (c1_date_bounded_traversal 2 2 c1Pages 60 (by decide) (by decide)
      (by decide) (by decide)).2.1⟩

def c1BrnoPages : List (List Notice) := [[⟨7, 3⟩], [⟨7, 4⟩]]

/-- C1, counterexample: the claim quantifies over every run of both
scrapers, but the Brno traversal violates it.  With `fromDate ≤ toDate`, a
stream of nonempty descending pages whose notices are all in range — so no
notice is ever skipped as too new and none is older than `fromDate` — an
unparseable total count (`parse_total_count` returns 0) makes the Brno loop
stop after the first page, so the in-range notice on page 2 is never
processed. -/
theorem c1_counterexample :
    (∀ p ∈ c1BrnoPages, p ≠ []) ∧
    c1BrnoPages.flatten.Pairwise (fun a b => b.date ≤ a.date) ∧
    (∀ n ∈ c1BrnoPages.flatten, inRange 0 10 n = true) ∧
    brnoLoop 0 10 0 c1BrnoPages 0 ≠
      c1BrnoPages.flatten.filter (inRange 0 10) := by decide

/-! ## C3/C10: collision-free filename resolution -/

def natVal (l : List Char) : Nat :=
  l.foldl (fun a c => a * 10 + (c.toNat - 48)) 0

theorem repAux_congr : ∀ (f1 n f2 : Nat), n < f1 → n < f2 →
    repAux f1 n = repAux f2 n := by
  intro f1
  induction f1 with
  | zero => intro n f2 h; omega
  | succ g ih =>
    intro n f2 h1 h2
    cases f2 with
    | zero => omega
    | succ h =>
      by_cases hn : n = 0
      · simp [repAux, hn]
      · have hd : n / 10 < n := Nat.div_lt_self (by omega) (by omega)
        simp only [repAux, if_neg hn]
        rw [ih (n / 10) h (by omega) (by omega)]

theorem natRep_succ (n : Nat) (hn : n ≠ 0) :
    natRep n = natRep (n / 10) ++ [digitChar (n % 10)] := by
  have hd : n / 10 < n := Nat.div_lt_self (by omega) (by omega)
  have h1 : natRep n = repAux n (n / 10) ++ [digitChar (n % 10)] := by
    rw [natRep]
    rw [show repAux (n + 1) n =
      if n = 0 then [] else repAux n (n / 10) ++ [digitChar (n % 10)] from rfl]
    rw [if_neg hn]
  rw [h1, natRep, repAux_congr n (n / 10) (n / 10 + 1) (by omega) (by omega)]

theorem natVal_append (l : List Char) (c : Char) :
    natVal (l ++ [c]) = natVal l * 10 + (c.toNat - 48) := by
  simp [natVal, List.foldl_append]

theorem digitChar_toNat : ∀ d, d < 10 → (digitChar d).toNat = 48 + d := by
  decide

theorem natVal_natRep : ∀ n, natVal (natRep n) = n := by
  intro n
  induction n using Nat.strong_induction_on with
  | _ n ih =>
    by_cases hn : n = 0
    · subst hn; rfl
    · have hd : n / 10 < n := Nat.div_lt_self (by omega) (by omega)
      rw [natRep_succ n hn, natVal_append, ih (n / 10) hd,
        digitChar_toNat (n % 10) (Nat.mod_lt n (by omega))]
      omega

theorem natRep_inj {a b : Nat} (h : natRep a = natRep b) : a = b := by
  have := congrArg natVal h
  rwa [natVal_natRep, natVal_natRep] at this

theorem candName_ne (base ext : List Char) (k : Nat) :
    ¬(candName base ext k = base ++ ext) := by
  intro h
  have := congrArg List.length h
  simp only [candName, List.length_append, List.length_cons] at this
  omega

theorem candName_inj (base ext : List Char) {j k : Nat}
    (h : candName base ext j = candName base ext k) : j = k := by
  simp only [candName] at h
  have h1 := List.append_cancel_right h
  have h2 := List.append_cancel_left h1
  injection h2 with _ h3
  exact natRep_inj h3

/-- The sequence of names examined by the collision loop: the current name,
then `candName` at successive counters. -/
def seqCand (base ext cur : List Char) (counter : Nat) : Nat → List Char
  | 0 => cur
  | i + 1 => candName base ext (counter + i)

theorem seqCand_shift (base ext cur : List Char) (counter i : Nat) :
    seqCand base ext (candName base ext counter) (counter + 1) i =
      seqCand base ext cur counter (i + 1) := by
  cases i with
  | zero => simp [seqCand]
  | succ j =>
    simp only [seqCand]
    congr 1
    omega

theorem availAux_not_mem (dir : List (List Char)) (base ext : List Char) :
    ∀ (fuel counter : Nat) (cur : List Char),
      (∃ i, i < fuel ∧ seqCand base ext cur counter i ∉ dir) →
      availAux dir base ext fuel counter cur ∉ dir := by
  intro fuel
  induction fuel with
  | zero => rintro counter cur ⟨i, hi, -⟩; omega
  | succ f ih =>
    rintro counter cur ⟨i, hi, hout⟩
    by_cases hcur : cur ∈ dir
    · simp only [availAux]
      rw [if_pos hcur]
      apply ih
      cases i with
      | zero => exact absurd hcur (by simpa [seqCand] using hout)
      | succ j =>
        exact ⟨j, by omega,
          by rw [seqCand_shift base ext cur counter j]; exact hout⟩
    · simp only [availAux]
      rw [if_neg hcur]
      exact hcur

theorem availAux_first (dir : List (List Char)) (base ext : List Char) :
    ∀ (fuel counter : Nat) (cur : List Char) (j : Nat), j < fuel →
      seqCand base ext cur counter j ∉ dir →
      (∀ i, i < j → seqCand base ext cur counter i ∈ dir) →
      availAux dir base ext fuel counter cur =
        seqCand base ext cur counter j := by
  intro fuel
  induction fuel with
  | zero => intro counter cur j hj; omega
  | succ f ih =>
    intro counter cur j hj hout hin
    cases j with
    | zero =>
      have hcur : cur ∉ dir := by simpa [seqCand] using hout
      simp only [availAux]
      rw [if_neg hcur]
      simp [seqCand]
    | succ j' =>
      have hcur : cur ∈ dir := by simpa [seqCand] using hin 0 (by omega)
      simp only [availAux]
      rw [if_pos hcur, ← seqCand_shift base ext cur counter j']
      exact ih (counter + 1) (candName base ext counter) j' (by omega)
        (by rw [seqCand_shift base ext cur counter j']; exact hout)
        (fun i hi => by
          rw [seqCand_shift base ext cur counter i]
          exact hin (i + 1) (by omega))

theorem exists_free (dir : List (List Char)) (base ext : List Char) :
    ∃ j, j ≤ dir.length ∧ seqCand base ext (base ++ ext) 1 j ∉ dir := by
  by_contra hcon
  push_neg at hcon
  have hinj : Function.Injective (seqCand base ext (base ++ ext) 1) := by
    intro i j hij
    cases i with
    | zero =>
      cases j with
      | zero => rfl
      | succ j' => exact absurd hij.symm (candName_ne base ext (1 + j'))
    | succ i' =>
      cases j with
      | zero => exact absurd hij (candName_ne base ext (1 + i'))
      | succ j' =>
        simp only [seqCand] at hij
        have := candName_inj base ext hij
        omega
  have hsub : ((List.range (dir.length + 1)).map
      (seqCand base ext (base ++ ext) 1)) ⊆ dir := by
    intro x hx
    simp only [List.mem_map, List.mem_range] at hx
    obtain ⟨i, hi, rfl⟩ := hx
    exact hcon i (by omega)
  have hnd : ((List.range (dir.length + 1)).map
      (seqCand base ext (base ++ ext) 1)).Nodup :=
    (List.nodup_range _).map hinj
  have hle := (hnd.subperm hsub).length_le
  simp at hle

theorem filename_eq_baseExt (f : List Char) :
    f = (baseExt f).1 ++ (baseExt f).2 := by
  cases hsp : rsplitDot f with
  | some p =>
    obtain ⟨n, e⟩ := p
    have h1 : baseExt f = (n, e) := by simp [baseExt, hsp]
    rw [h1]
    exact (rsplitDot_spec hsp).1
  | none =>
    have h1 : baseExt f = (f, []) := by simp [baseExt, hsp]
    rw [h1]
    simp

theorem get_spec (dir : List (List Char)) (f : List Char) :
    ∃ j, (∀ i, i < j → seqCand (baseExt f).1 (baseExt f).2 f 1 i ∈ dir) ∧
      seqCand (baseExt f).1 (baseExt f).2 f 1 j ∉ dir ∧
      get_available_filename dir f =
        seqCand (baseExt f).1 (baseExt f).2 f 1 j := by
  classical
  have hfeq : f = (baseExt f).1 ++ (baseExt f).2 := filename_eq_baseExt f
  obtain ⟨j0, hj0, hout0⟩ := exists_free dir (baseExt f).1 (baseExt f).2
  rw [← hfeq] at hout0
  have hex : ∃ j, seqCand (baseExt f).1 (baseExt f).2 f 1 j ∉ dir := ⟨j0, hout0⟩
  refine ⟨Nat.find hex, fun i hi => not_not.mp (Nat.find_min hex hi),
    Nat.find_spec hex, ?_⟩
  have hjle : Nat.find hex ≤ j0 := Nat.find_min' hex hout0
  unfold get_available_filename
  exact availAux_first dir (baseExt f).1 (baseExt f).2 (dir.length + 1) 1 f
    (Nat.find hex) (by omega) (Nat.find_spec hex)
    (fun i hi => not_not.mp (Nat.find_min hex hi))

/-- C3: collision resolution never returns a name already present, depends
only on the membership of the existing-file set, and resolves the spec's
concrete example by appending `_1` before the extension. -/
theorem c3_collision_resolution :
    (∀ (dir : List (List Char)) (f : List Char),
      get_available_filename dir f ∉ dir) ∧
    (∀ (d1 d2 : List (List Char)) (f : List Char),
      (∀ x, x ∈ d1 ↔ x ∈ d2) →
      get_available_filename d1 f = get_available_filename d2 f) ∧
    get_available_filename [str "2024-05-01_doc.pdf"]
      (str "2024-05-01_doc.pdf") = str "2024-05-01_doc_1.pdf" := by
  refine ⟨?_, ?_, by decide⟩
  · intro dir f
    obtain ⟨j, hin, hout, he⟩ := get_spec dir f
    rw [he]
    exact hout
  · intro d1 d2 f h
    obtain ⟨j1, hin1, hout1, he1⟩ := get_spec d1 f
    obtain ⟨j2, hin2, hout2, he2⟩ := get_spec d2 f
    have hj : j1 = j2 := by
      by_contra hne
      rcases Nat.lt_or_ge j1 j2 with hlt | hge
      · exact hout1 ((h _).mpr (hin2 j1 hlt))
      · have hlt2 : j2 < j1 := by omega
        exact hout2 ((h _).mp (hin1 j2 hlt2))
    rw [he1, he2, hj]

theorem c3_witness :
    get_available_filename [str "a.pdf"] (str "a.pdf") ∉ [str "a.pdf"] ∧
    get_available_filename [str "b.pdf", str "b.pdf"] (str "b.pdf") =
      get_available_filename [str "b.pdf"] (str "b.pdf") :=
  ⟨c3_collision_resolution.1 [str "a.pdf"] (str "a.pdf"),
    c3_collision_resolution.2.1 [str "b.pdf", str "b.pdf"] [str "b.pdf"]
      (str "b.pdf") (by intro x; simp)⟩

theorem availAux_shape (dir : List (List Char)) (base ext : List Char) :
    ∀ (fuel counter : Nat) (cur : List Char),
      availAux dir base ext fuel counter cur = cur ∨
      ∃ k, counter ≤ k ∧
        availAux dir base ext fuel counter cur = candName base ext k := by
  intro fuel
  induction fuel with
  | zero => intro counter cur; exact Or.inl rfl
  | succ f ih =>
    intro counter cur
    by_cases h : cur ∈ dir
    · simp only [availAux]
      rw [if_pos h]
      rcases ih (counter + 1) (candName base ext counter) with he | ⟨k, hk, he⟩
      · exact Or.inr ⟨counter, le_refl _, he⟩
      · exact Or.inr ⟨k, by omega, he⟩
    · simp only [availAux]
      rw [if_neg h]
      exact Or.inl rfl

/-- C10: only the text after the last dot is the extension — the numeric
suffix lands before the final extension of a multi-dot name, and at the very
end of a dotless name. -/
theorem c10_extension_split :
    get_available_filename [str "a.tar.gz"] (str "a.tar.gz") =
      str "a.tar_1.gz" ∧
    get_available_filename [str "doc"] (str "doc") = str "doc_1" ∧
    ∀ (dir : List (List Char)) (f : List Char), '.' ∉ f →
      get_available_filename dir f = f ∨
        ∃ k, 1 ≤ k ∧ get_available_filename dir f = f ++ '_' :: natRep k := by
  refine ⟨by decide, by decide, ?_⟩
  intro dir f hnd
  have hbe : baseExt f = (f, []) := by simp [baseExt, rsplitDot_none hnd]
  unfold get_available_filename
  rw [hbe]
  rcases availAux_shape dir f [] (dir.length + 1) 1 f with he | ⟨k, hk, he⟩
  · exact Or.inl he
  · refine Or.inr ⟨k, hk, ?_⟩
    rw [he]
    simp [candName]

theorem c10_witness :
    get_available_filename [str "x"] (str "x") = str "x" ∨
      ∃ k, 1 ≤ k ∧
        get_available_filename [str "x"] (str "x") = str "x" ++ '_' :: natRep k :=
  c10_extension_split.2.2 [str "x"] (str "x") (by decide)

/-! ## C4: page-fetch retry behaviour -/

theorem pageRetry_success (tryf : Attempt → Option (List Char))
    (att : Nat → Attempt) (b : List Char) :
    ∀ (k fuel retry : Nat), k < fuel → retry + k ≤ MAX_RETRIES →
      (∀ i, i < k → tryf (att (retry + i)) = none) →
      tryf (att (retry + k)) = some b →
      pageRetryAux tryf att fuel retry =
        (some b,
          (List.replicate k [LogEv.warn, LogEv.sleepSec PAUSE_ON_ERROR]).flatten) := by
  intro k
  induction k with
  | zero =>
    intro fuel retry hf _ _ hk
    cases fuel with
    | zero => omega
    | succ f =>
      rw [Nat.add_zero] at hk
      simp [pageRetryAux, hk]
  | succ k ih =>
    intro fuel retry hf hle hfail hk
    cases fuel with
    | zero => omega
    | succ f =>
      have h0 : tryf (att retry) = none := by
        have := hfail 0 (by omega)
        rwa [Nat.add_zero] at this
      have hretry : retry < MAX_RETRIES := by
        simp only [MAX_RETRIES] at hle ⊢
        omega
      simp only [pageRetryAux, h0]
      rw [if_pos hretry]
      rw [ih f (retry + 1) (by omega)
        (by simp only [MAX_RETRIES] at hle ⊢; omega)
        (fun i hi => by
          have := hfail (i + 1) (by omega)
          rwa [show retry + (i + 1) = retry + 1 + i by omega] at this)
        (by rwa [show retry + 1 + k = retry + (k + 1) by omega])]
      simp [List.replicate_succ]

theorem pageRetry_allfail (tryf : Attempt → Option (List Char))
    (att : Nat → Attempt) :
    ∀ (n retry fuel : Nat), retry + n = MAX_RETRIES → n < fuel →
      (∀ i, retry ≤ i → i ≤ MAX_RETRIES → tryf (att i) = none) →
      pageRetryAux tryf att fuel retry =
        (none,
          (List.replicate n [LogEv.warn, LogEv.sleepSec PAUSE_ON_ERROR]).flatten
            ++ [LogEv.error]) := by
  intro n
  induction n with
  | zero =>
    intro retry fuel hmax hf hfail
    cases fuel with
    | zero => omega
    | succ f =>
      have h0 : tryf (att retry) = none := hfail retry (le_refl _) (by omega)
      simp only [pageRetryAux, h0]
      rw [if_neg (by omega)]
      simp
  | succ n ih =>
    intro retry fuel hmax hf hfail
    cases fuel with
    | zero => omega
    | succ f =>
      have h0 : tryf (att retry) = none := hfail retry (le_refl _) (by omega)
      simp only [pageRetryAux, h0]
      rw [if_pos (by omega)]
      rw [ih (retry + 1) f (by omega) (by omega)
        (fun i hi1 hi2 => hfail i (by omega) hi2)]
      simp [List.replicate_succ]

/-- C4, amended: for JMK page fetches, a non-200 response or a 200 response
whose body carries a maintenance marker is exactly what the `try` block turns
into a failure; `k ≤ 3` such failures followed by a success produce `k`
WARN + 30s-sleep retries and the successful body, and failures at all four
attempts produce three WARN + sleep retries, a final ERROR, and `none`. -/
theorem c4_jmk_page_retry :
    (∀ (s : Nat) (body : List Char), jmk_try (Attempt.resp s body) = none ↔
      (s ≠ 200 ∨ maintenanceMarker body = true)) ∧
    (∀ (att : Nat → Attempt) (k : Nat) (b : List Char), k ≤ MAX_RETRIES →
      (∀ i, i < k → jmk_try (att i) = none) → jmk_try (att k) = some b →
      jmk_get_page att =
        (some b,
          (List.replicate k [LogEv.warn, LogEv.sleepSec PAUSE_ON_ERROR]).flatten)) ∧
    (∀ att : Nat → Attempt, (∀ i, i ≤ MAX_RETRIES → jmk_try (att i) = none) →
      jmk_get_page att =
        (none,
          (List.replicate MAX_RETRIES
            [LogEv.warn, LogEv.sleepSec PAUSE_ON_ERROR]).flatten
            ++ [LogEv.error])) := by
  refine ⟨?_, ?_, ?_⟩
  · intro s body
    by_cases hs : s = 200
    · by_cases hm : maintenanceMarker body = true
      · simp [jmk_try, hs, hm]
      · simp [jmk_try, hs, hm]
    · simp [jmk_try, hs]
  · intro att k b hk hfail hsucc
    unfold jmk_get_page
    exact pageRetry_success jmk_try att b k (MAX_RETRIES + 1) 0 (by omega)
      (by omega) (fun i hi => by simpa using hfail i hi) (by simpa using hsucc)
  · intro att hfail
    unfold jmk_get_page
    exact pageRetry_allfail jmk_try att MAX_RETRIES 0 (MAX_RETRIES + 1)
      (by omega) (by omega) (fun i _ hi => hfail i hi)

def c4AttWitness : Nat → Attempt := fun n =>
  if n = 0 then Attempt.resp 503 [] else Attempt.resp 200 (str "ok")

theorem c4_witness :
    jmk_get_page c4AttWitness =
      (some (str "ok"),
        (List.replicate 1 [LogEv.warn, LogEv.sleepSec PAUSE_ON_ERROR]).flatten) :=
  c4_jmk_page_retry.2.1 c4AttWitness 1 (str "ok") (by decide) (by decide)
    (by decide)

/-- C4, counterexample: a Brno page fetch returning HTTP 200 with a
maintenance-marker body is *not* treated as a transient failure — the body is
returned as success with no WARN, sleep, retry, or ERROR, because
`BrnoScraper.get_page` never inspects the body. -/
theorem c4_counterexample :
    maintenanceMarker (str "docasne nedostupna") = true ∧
    brno_get_page (fun _ => Attempt.resp 200 (str "docasne nedostupna")) =
      (some (str "docasne nedostupna"), []) := by
  constructor
  · decide
  · rfl

/-! ## C6: the document-unavailable soft failure -/

/-- C6, amended: for JMK streamed downloads, a 200 text/html response without
an attachment disposition, free of maintenance markers but carrying the
document-unavailable marker, is exactly the soft outcome; a first attempt
classified soft returns failure immediately with a single WARN — no sleep, no
retry, no ERROR. -/
theorem c6_jmk_soft_unavailable :
    (∀ r : DlResp, jmk_dl_try r = DlOutcome.soft ↔
      (r.status = 200 ∧
        (containsSeg (str "text/html") r.contentType && !r.hasDisposition) = true ∧
        maintenanceMarker r.body = false ∧ docUnavailable r.body = true)) ∧
    (∀ (att : Nat → DlAttempt) (r : DlResp), att 0 = DlAttempt.resp r →
      jmk_dl_try r = DlOutcome.soft →
      jmk_download att = (false, [LogEv.warn])) := by
  constructor
  · intro r
    by_cases h1 : r.status = 200
    · by_cases h2 : (containsSeg (str "text/html") r.contentType &&
          !r.hasDisposition) = true
      · by_cases h3 : maintenanceMarker r.body = true
        · simp [jmk_dl_try, h1, h2, h3]
        · by_cases h4 : docUnavailable r.body = true
          · simp [jmk_dl_try, h1, h2, h3, h4]
          · simp [jmk_dl_try, h1, h2, h3, h4]
      · simp [jmk_dl_try, h1, h2]
    · simp [jmk_dl_try, h1]
  · intro att r h0 hs
    unfold jmk_download
    show dlRetryAux jmk_dl_try att (MAX_RETRIES + 1) 0 = (false, [LogEv.warn])
    simp only [MAX_RETRIES]
    simp [dlRetryAux, h0, hs]

def c6Resp : DlResp :=
  ⟨200, str "text/html; charset=utf-8", false,
    str "Tento dokument neni k dispozici"⟩

/-- C6, counterexample: the same document-unavailable body that JMK treats as
a terminal WARN soft failure is saved and reported as a *successful* download
by `BrnoScraper.download_file`, which never checks for that marker. -/
theorem c6_counterexample :
    docUnavailable c6Resp.body = true ∧
    containsSeg (str "text/html") c6Resp.contentType = true ∧
    c6Resp.hasDisposition = false ∧ c6Resp.status = 200 ∧
    maintenanceMarker c6Resp.body = false ∧
    brno_download (fun _ => DlAttempt.resp c6Resp) = (true, []) := by
  refine ⟨by decide, by decide, by decide, by decide, by decide, ?_⟩
  rfl

def c6AttWitness : Nat → DlAttempt := fun _ => DlAttempt.resp c6Resp

theorem c6_witness : jmk_download c6AttWitness = (false, [LogEv.warn]) :=
  c6_jmk_soft_unavailable.2 c6AttWitness c6Resp rfl (by decide)

/-! ## C7: row-level date-parse failures -/

/-- C7, amended: a row whose date cell fails the `\d{2}\.\d{2}\.\d{4}`
pattern, or which lacks the required detail link, is dropped and the
remaining rows are processed; and whenever every pattern-matching date is
calendar-valid the page parse succeeds.  But a row whose date matches the
pattern while being calendar-invalid aborts the whole page parse (the
`strptime` `ValueError` is uncaught), so that failure is not confined to the
row. -/
theorem c7_row_errors :
    (∀ (r : RawRow) (rs : List RawRow), matchesDatePat r.dateText = false →
      parseRows (r :: rs) = parseRows rs) ∧
    (∀ (r : RawRow) (rs : List RawRow), r.link = none →
      parseRows (r :: rs) = parseRows rs) ∧
    (∀ (r : RawRow) (rs : List RawRow) (u t : List Char),
      matchesDatePat r.dateText = true → r.link = some (u, t) →
      parse_date_cz r.dateText = none → parseRows (r :: rs) = none) ∧
    (∀ rs : List RawRow,
      (∀ r ∈ rs, matchesDatePat r.dateText = true →
        (parse_date_cz r.dateText).isSome) → (parseRows rs).isSome) := by
  refine ⟨?_, ?_, ?_, ?_⟩
  · intro r rs h
    simp [parseRows, h]
  · intro r rs h
    by_cases hp : matchesDatePat r.dateText = true
    · simp [parseRows, hp, h]
    · simp [parseRows, Bool.eq_false_iff.mpr hp]
  · intro r rs u t hp hl hd
    simp [parseRows, hp, hl, hd]
  · intro rs h
    induction rs with
    | nil => simp [parseRows]
    | cons r rs ih =>
      have ih' := ih (fun q hq hqp => h q (by simp [hq]) hqp)
      by_cases hp : matchesDatePat r.dateText = true
      · cases hl : r.link with
        | none => simpa [parseRows, hp, hl] using ih'
        | some p =>
          obtain ⟨u, t⟩ := p
          have hd := h r (by simp) hp
          obtain ⟨d, hd⟩ := Option.isSome_iff_exists.mp hd
          obtain ⟨items, hitems⟩ := Option.isSome_iff_exists.mp ih'
          simp [parseRows, hp, hl, hd, hitems]
      · simpa [parseRows, Bool.eq_false_iff.mpr hp] using ih'

def c7BadRow : RawRow := ⟨str "45.13.2024", some (str "detail?id=1", str "Titul")⟩

def c7GoodRow : RawRow := ⟨str "01.02.2024", some (str "detail?id=2", str "Dalsi")⟩

/-- C7, counterexample: a row whose date cell matches the digit pattern but
is not a valid day.month.year calendar date ("45.13.2024") is not merely
dropped: the whole page parse aborts, losing the following valid row — the
failure is fatal to the page, contradicting the claim. -/
theorem c7_counterexample :
    matchesDatePat c7BadRow.dateText = true ∧
    parseRows [c7BadRow, c7GoodRow] = none := by
  constructor
  · decide
  · rfl

def c7DropRow : RawRow := ⟨str "neznamy datum", none⟩

theorem c7_witness :
    parseRows [c7DropRow] = parseRows [] :=
  c7_row_errors.1 c7DropRow [] (by decide)

/-! ## C5: dependence on the parsed total count -/

def c5N1 : Notice := ⟨5, 1⟩

def c5N2 : Notice := ⟨5, 2⟩

/-- C5: the upfront total count is not a pure optimization.  With the same
two pages of in-range notices, a parseable count of 40 lets the loop process
both pages, while an unparseable count (`parse_total_count` returns 0) makes
`first >= total_count` hold after the first page, silently dropping the
second page's notice. -/
theorem c5_count_changes_harvest :
    brnoLoop 0 10 40 [[c5N1], [c5N2]] 0 = [c5N1, c5N2] ∧
    brnoLoop 0 10 0 [[c5N1], [c5N2]] 0 = [c5N1] := by
  constructor
  · rfl
  · rfl

end Spec2Proof
